import Mathlib

/-!
# Verification of the Zorro documentation extractor

A shallow embedding, in Lean, of `zorro_doc_extractor.py`: the
table-of-contents parser (`get_doc_urls`), the HTML-to-Markdown content
converter (`html_to_markdown`), the related-page resolver
(`find_related_pages`), the metadata header builder
(`create_metadata_header`), the filename sanitizer (`sanitize_filename`)
and the orchestrator loop (`extract_zorro_documentation`), followed by
theorems settling the behavioural claims about them.

HTML documents are modelled as a tree of element and text nodes; the
library routines the script leans on (BeautifulSoup traversal and
attribute access, `urllib.parse.urljoin`, `os.path.basename`,
`str.replace`, `str.strip`, `re.sub` for the two fixed patterns used)
are modelled at the call sites, over `List Char` so that everything is
executable.
-/

/-! ## Python string primitives, modelled over `List Char` -/

/-- Whitespace as `str.strip()` sees it: space, tab, newline, carriage
return, vertical tab and form feed. -/
def isPySpace (c : Char) : Bool :=
  c = ' ' || c = '\t' || c = '\n' || c = '\r' || c = '\x0b' || c = '\x0c'

/-- Models `str.strip()` on the character list: drop leading and trailing
whitespace, keep the interior untouched. -/
def pyStripL (l : List Char) : List Char :=
  ((l.dropWhile isPySpace).reverse.dropWhile isPySpace).reverse

/-- Models `str.strip()`. -/
def pyStrip (s : String) : String := String.mk (pyStripL s.data)

/-- Substring containment on character lists, models the Python `in`
operator on strings (empty needle is contained everywhere). -/
def containsSubL : List Char → List Char → Bool
  | hay, needle =>
    if needle.isPrefixOf hay then true
    else
      match hay with
      | [] => false
      | _ :: t => containsSubL t needle

/-- Models `needle in hay` for Python strings. -/
def strContains (hay needle : String) : Bool := containsSubL hay.data needle.data

/-- Models `str.startswith`. -/
def pyStartsWith (s pre : String) : Bool := pre.data.isPrefixOf s.data

/-- Models `str.endswith`. -/
def pyEndsWith (s post : String) : Bool := post.data.isSuffixOf s.data

/-- Models `str.lower()` (ASCII case folding suffices here). -/
def pyLower (s : String) : String := String.mk (s.data.map Char.toLower)

/-- Models `sep.join(parts)`. -/
def joinWith (sep : String) : List String → String
  | [] => ""
  | [x] => x
  | x :: y :: t => x ++ sep ++ joinWith sep (y :: t)

/-- Splitting on whitespace with empty pieces dropped, as BeautifulSoup
does for the multi-valued `class` attribute; `acc` holds the current
word, reversed. -/
def splitWsGo (acc : List Char) : List Char → List String
  | [] => if acc.isEmpty then [] else [String.mk acc.reverse]
  | c :: t =>
    if isPySpace c then
      if acc.isEmpty then splitWsGo [] t else String.mk acc.reverse :: splitWsGo [] t
    else splitWsGo (c :: acc) t

/-- Whitespace-splitting of an attribute value. -/
def splitWs (s : String) : List String := splitWsGo [] s.data

/-- Models `str.replace(pat, rep)` (all occurrences, left to right,
non-overlapping) for the nonempty patterns the script uses. The fuel
argument, always called with the subject's length, only makes the
recursion structural; each step consumes at least one subject
character, so the fuel never runs out. -/
def pyReplaceGo (pat rep : List Char) : List Char → Nat → List Char
  | s, 0 => s
  | [], _ => []
  | c :: t, Nat.succ fuel =>
    if pat.isPrefixOf (c :: t) && !pat.isEmpty then
      rep ++ pyReplaceGo pat rep (List.drop (pat.length - 1) t) fuel
    else
      c :: pyReplaceGo pat rep t fuel

/-- Models `s.replace(pat, rep)`. -/
def pyReplace (s pat rep : String) : String :=
  String.mk (pyReplaceGo pat.data rep.data s.data s.data.length)

/-- Models `os.path.basename`: the part after the last slash. -/
def basenameL : List Char → List Char
  | [] => []
  | c :: t => if (c :: t).contains '/' then basenameL t else c :: t

/-- Models `os.path.basename` on strings. -/
def basename (s : String) : String := String.mk (basenameL s.data)

/-- Everything up to and including the last slash of the list (empty when
there is no slash). -/
def upToLastSlashL : List Char → List Char
  | [] => []
  | c :: t =>
    if t.contains '/' then c :: upToLastSlashL t
    else if c = '/' then ['/'] else []

/-- Everything up to and including the last slash of a string. -/
def upToLastSlash (s : String) : String := String.mk (upToLastSlashL s.data)

/-- Models the behaviour of `urllib.parse.urljoin` at this program's call
sites: an absolute http(s) reference is returned unchanged, any other
reference is resolved against the base URL's directory (the base up to
and including its last slash). Dot-segment and root-relative
normalisation are not exercised by the claims and are omitted. -/
def urljoin (base rel : String) : String :=
  if pyStartsWith rel "http" then rel else upToLastSlash base ++ rel

/-! ## The HTML document model -/

/-- An HTML node: an element with a tag name, attributes and children, or
a text node. Mirrors what BeautifulSoup exposes of the parse tree. -/
inductive Node where
  | elem (name : String) (attrs : List (String × String)) (children : List Node)
  | text (s : String)

/-- Tag name of a node (text nodes have none; only elements are ever
returned by the `find_all` model below). -/
def nodeName : Node → String
  | .elem nm _ _ => nm
  | .text _ => ""

/-- First value bound to an attribute key, models `element.get(key)`. -/
def lookupAttr : List (String × String) → String → Option String
  | [], _ => none
  | (k, v) :: t, key => if k = key then some v else lookupAttr t key

/-- Models `element.get(key)` (None on text nodes and missing keys). -/
def getAttr : Node → String → Option String
  | .text _, _ => none
  | .elem _ attrs _, key => lookupAttr attrs key

/-- Models BeautifulSoup's multi-valued `class` attribute: the attribute
string split on whitespace, `None` when the attribute is missing. -/
def getClasses (n : Node) : Option (List String) :=
  (getAttr n "class").map splitWs

mutual
/-- Models `element.get_text()` / `element.text`: concatenation of all
descendant text, in document order. -/
def textContent : Node → String
  | .text s => s
  | .elem _ _ ch => textContentL ch

/-- Text of a list of siblings, in order. -/
def textContentL : List Node → String
  | [] => ""
  | n :: t => textContent n ++ textContentL t
end

mutual
/-- Models `soup.find_all([name, ...])`: every element whose tag name is
one of the given names, in document (preorder) order. A name filter
list in BeautifulSoup matches tag names only, never CSS classes. -/
def findAllByNames (names : List String) : Node → List Node
  | .text _ => []
  | .elem nm attrs ch =>
    (if names.contains nm then [Node.elem nm attrs ch] else []) ++ findAllByNamesL names ch

/-- The matches of `findAllByNames` over a list of siblings. -/
def findAllByNamesL (names : List String) : List Node → List Node
  | [] => []
  | n :: t => findAllByNames names n ++ findAllByNamesL names t
end

/-! ## Table-of-contents parser (`get_doc_urls`) -/

/-- Base URL for the Zorro documentation, the module constant `BASE_URL`. -/
def BASE_URL : String := "https://zorro-project.com/manual/"

/-- One entry of the flat descriptor list: the `page_info` dict built for
every content anchor. -/
structure PageInfo where
  url : String
  title : String
  category : String
  subcategory : Option String
  filename : String
deriving DecidableEq, Repr

/-- Value of one hierarchy entry: `{"subcategories": {...}, "pages": [...]}`.
Python dicts keep insertion order, so both mappings are association
lists. -/
structure CatData where
  subcategories : List (String × List PageInfo)
  pages : List PageInfo
deriving DecidableEq, Repr

/-- Models `d[k] = v` on an insertion-ordered dict: overwrite in place when
the key exists, append otherwise. -/
def assocSet {α : Type} : List (String × α) → String → α → List (String × α)
  | [], k, v => [(k, v)]
  | (k0, v0) :: t, k, v =>
    if k0 = k then (k0, v) :: t else (k0, v0) :: assocSet t k v

/-- Models `d.get(k)` on an insertion-ordered dict. -/
def assocGet {α : Type} : List (String × α) → String → Option α
  | [], _ => none
  | (k0, v0) :: t, k => if k0 = k then some v0 else assocGet t k

/-- Models `k in d`. -/
def assocMem {α : Type} (m : List (String × α)) (k : String) : Bool :=
  (assocGet m k).isSome

/-- Models in-place mutation `f(d[k])` of an existing entry. -/
def assocModify {α : Type} : List (String × α) → String → (α → α) → List (String × α)
  | [], _, _ => []
  | (k0, v0) :: t, k, f =>
    if k0 = k then (k0, f v0) :: t else (k0, v0) :: assocModify t k f

/-- The loop state of `get_doc_urls`: the two cursors, the hierarchy and
the flat descriptor list. -/
structure TocState where
  current_category : String
  current_subcategory : Option String
  hierarchy : List (String × CatData)
  doc_urls : List PageInfo

/-- State at loop entry: category `"Main"`, no subcategory, empty
hierarchy and descriptor list. -/
def tocInit : TocState :=
  { current_category := "Main", current_subcategory := none, hierarchy := [], doc_urls := [] }

/-- Models the test `element.name == 'img' and marker in element.get('src', '')`. -/
def isImgWith (el : Node) (marker : String) : Bool :=
  nodeName el = "img" && strContains ((getAttr el "src").getD "") marker

/-- Models `element.get('title') or element.text`: the title attribute
when present and non-empty, the node text otherwise. -/
def attrOrText (el : Node) (key : String) : String :=
  match getAttr el key with
  | some t => if t = "" then textContent el else t
  | none => textContent el

/-- Python truthiness of the subcategory cursor: set and non-empty. -/
def truthySub : Option String → Bool
  | some s => s ≠ ""
  | none => false

/-- The subcategory map of a category entry, empty when the category is
not registered. -/
def subcatsOf (h : List (String × CatData)) (cat : String) : List (String × List PageInfo) :=
  match assocGet h cat with
  | some cd => cd.subcategories
  | none => []

/-- The `page_info` dict built for a matching anchor: absolute URL,
title-or-text, the two cursors, and the basename of the raw href. -/
def mkPageInfo (st : TocState) (el : Node) (url : String) : PageInfo :=
  { url := if pyStartsWith url "http" then url else urljoin BASE_URL url
  , title := attrOrText el "title"
  , category := st.current_category
  , subcategory := st.current_subcategory
  , filename := basename url }

/-- Lines 66-70 of the source: the page joins the hierarchy only when the
current category is registered; under the subcategory when the
subcategory cursor is truthy and registered, under the category's
direct page list otherwise. -/
def addPageToHierarchy (h : List (String × CatData)) (cat : String)
    (sub : Option String) (p : PageInfo) : List (String × CatData) :=
  if assocMem h cat then
    if truthySub sub && assocMem (subcatsOf h cat) (sub.getD "") then
      assocModify h cat (fun cd =>
        { cd with subcategories := assocModify cd.subcategories (sub.getD "") (fun l => l ++ [p]) })
    else
      assocModify h cat (fun cd => { cd with pages := cd.pages ++ [p] })
  else h

/-- One iteration of the `for i, element in enumerate(elements)` loop;
`next` is `elements[i+1]` when it exists. -/
def tocStep (st : TocState) (el : Node) (next : Option Node) : TocState :=
  if isImgWith el "p4.gif" then
    match next with
    | some nx =>
      if nodeName nx = "a" then
        let cat := attrOrText nx "title"
        { st with current_category := cat
                , current_subcategory := none
                , hierarchy := assocSet st.hierarchy cat { subcategories := [], pages := [] } }
      else st
    | none => st
  else if isImgWith el "p3.gif" then
    match next with
    | some nx =>
      if nodeName nx = "a" then
        let sub := attrOrText nx "title"
        { st with current_subcategory := some sub
                , hierarchy :=
                    if assocMem st.hierarchy st.current_category then
                      assocModify st.hierarchy st.current_category (fun cd =>
                        { cd with subcategories := assocSet cd.subcategories sub [] })
                    else st.hierarchy }
      else st
    | none => st
  else if nodeName el = "a" && getClasses el == some ["clsTOCItem"] then
    match getAttr el "href" with
    | some url =>
      if pyEndsWith url ".htm" then
        let p := mkPageInfo st el url
        { st with doc_urls := st.doc_urls ++ [p]
                , hierarchy := addPageToHierarchy st.hierarchy st.current_category st.current_subcategory p }
      else st
    | none => st
  else st

/-- The loop over the element list, with one-element lookahead. -/
def tocLoop : TocState → List Node → TocState
  | st, [] => st
  | st, el :: rest => tocLoop (tocStep st el rest.head?) rest

/-- Models `get_doc_urls` on the fetched table-of-contents markup: walk
all `img` and `a` elements in document order and return the flat
descriptor list and the hierarchy. -/
def get_doc_urls (soup : Node) : List PageInfo × List (String × CatData) :=
  let st := tocLoop tocInit (findAllByNames ["img", "a"] soup)
  (st.doc_urls, st.hierarchy)

/-- A content anchor as line 45-49 of the source tests it: an `a` element
whose class list is exactly `["clsTOCItem"]` and whose href ends in
`.htm`. The condition is independent of the loop state and lookahead. -/
def anchorMatch (el : Node) : Bool :=
  nodeName el = "a" && getClasses el == some ["clsTOCItem"]
    && (match getAttr el "href" with
        | some u => pyEndsWith u ".htm"
        | none => false)

/-! ## Content converter (`html_to_markdown`) -/

/-- The name filter list passed to `find_all` on line 86. The third entry
is a CSS selector by intent but a tag name in fact, so it matches only
elements literally named `.wp_codebox`, never elements bearing that
class. -/
def codeSelectors : List String := ["pre", "code", ".wp_codebox"]

/-- Single quote character, used when rendering Python `str(list)`. -/
def squote : Char := '\''

/-- Models `str(classes)` for a list of class strings: the Python list
repr with single quotes. -/
def pyReprStrList (l : List String) : String :=
  "[" ++ joinWith ", " (l.map (fun s =>
    String.singleton squote ++ s ++ String.singleton squote)) ++ "]"

/-- Lines 87-96: infer the fenced-block language tag from the element's
class attribute, by substring tests on the lowercased list repr, with
the fixed precedence python, javascript/js, rsplus, default `"c"`. -/
def inferLanguage (el : Node) : String :=
  match getAttr el "class" with
  | none => "c"
  | some clsAttr =>
    let s := pyLower (pyReprStrList (splitWs clsAttr))
    if strContains s "python" then "python"
    else if strContains s "javascript" || strContains s "js" then "javascript"
    else if strContains s "rsplus" then "r"
    else "c"

/-- The numbered placeholder text `CODE_BLOCK_PLACEHOLDER_{i}`. -/
def codePlaceholder (i : Nat) : String := "CODE_BLOCK_PLACEHOLDER_" ++ toString i

/-- The `<p>` tag that replaces the i-th code element. -/
def placeholderTag (i : Nat) : Node :=
  Node.elem "p" [] [Node.text (codePlaceholder i)]

mutual
/-- Matches of the name filter in a subtree, self included. -/
def countMatches (names : List String) : Node → Nat
  | .text _ => 0
  | .elem nm _ ch => (if names.contains nm then 1 else 0) + countMatchesL names ch

/-- Matches of the name filter over a list of siblings. -/
def countMatchesL (names : List String) : List Node → Nat
  | [] => 0
  | n :: t => countMatches names n + countMatchesL names t
end

mutual
/-- The `replace_with` loop of lines 100-104 as a single pass: each match
is replaced by the placeholder carrying its preorder match index. A
match nested inside another match was already detached when its own
turn came, so only the outermost match of a chain is replaced, but the
inner ones still advance the numbering (they are in `code_blocks`). -/
def replaceCodeNode (names : List String) (i : Nat) : Node → Node × Nat
  | .text s => (.text s, i)
  | .elem nm attrs ch =>
    if names.contains nm then
      (placeholderTag i, i + 1 + countMatchesL names ch)
    else
      let r := replaceCodeL names i ch
      (.elem nm attrs r.1, r.2)

/-- `replaceCodeNode` over a list of siblings, threading the index. -/
def replaceCodeL (names : List String) (i : Nat) : List Node → List Node × Nat
  | [] => ([], i)
  | n :: t =>
    let r := replaceCodeNode names i n
    let rt := replaceCodeL names r.2 t
    (r.1 :: rt.1, rt.2)
end

mutual
/-- Modelled from the spec: the generic HTML-to-Markdown converter
(`html2text.HTML2Text` with `body_width = 0`, line 107-109), which is
not part of this repository, restricted to the shapes exercised here:
text passes through unchanged, a `p` element renders its content
followed by a blank line, any other element renders its children in
order. -/
def h2t_handle : Node → String
  | .text s => s
  | .elem nm _ ch => if nm = "p" then h2tHandleL ch ++ "\n\n" else h2tHandleL ch

/-- The converter over a list of siblings. -/
def h2tHandleL : List Node → String
  | [] => ""
  | n :: t => h2t_handle n ++ h2tHandleL t
end

/-- Line 113: the fenced block substituted for a placeholder. -/
def fenceBlock (lang code : String) : String :=
  "```" ++ lang ++ "\n" ++ pyStrip code ++ "\n```"

/-- Lines 112-114: substitute every placeholder, in index order, by its
fenced block. -/
def restoreCodeBlocks (md : String) (blocks : List (String × String)) : String :=
  blocks.enum.foldl (fun m pr => pyReplace m (codePlaceholder pr.1) (fenceBlock pr.2.1 pr.2.2)) md

/-- Line 79: the text of the first `title` element, `"Untitled"` when
there is none. -/
def extractTitle (soup : Node) : String :=
  match findAllByNames ["title"] soup with
  | [] => "Untitled"
  | t :: _ => textContent t

/-- The stored `(language, raw text)` pairs of line 99, in match order. -/
def codeBlocksOf (soup : Node) : List (String × String) :=
  (findAllByNames codeSelectors soup).map (fun el => (inferLanguage el, textContent el))

/-- Everything `html_to_markdown` does before the final newline cleanup
of line 117: extract and number the code regions, convert the rest,
substitute the fenced blocks back. -/
def html_to_markdown_raw (soup : Node) : String :=
  restoreCodeBlocks (h2t_handle (replaceCodeNode codeSelectors 0 soup).1) (codeBlocksOf soup)

/-- Is there a run of three or more consecutive newlines? Models what the
pattern of `re.sub(r'\n{3,}', ...)` matches. -/
def headIsNL : List Char → Bool
  | c :: _ => c = '\n'
  | [] => false

/-- True exactly when the list contains three consecutive newlines. -/
def hasTripleNL : List Char → Bool
  | [] => false
  | a :: t => (a = '\n' && headIsNL t && headIsNL t.tail) || hasTripleNL t

/-- What a maximal run of `k` newlines becomes under the cleanup: two
newlines when `k ≥ 3`, itself otherwise. -/
def emitNL (k : Nat) : List Char :=
  if 3 ≤ k then List.replicate 2 '\n' else List.replicate k '\n'

/-- Models `re.sub(r'\n{3,}', '\n\n', s)` by a left-to-right scan with a
pending-newline counter: a maximal run of three or more newlines is
replaced by exactly two, shorter runs and everything else are kept. -/
def collapseGo (k : Nat) : List Char → List Char
  | [] => emitNL k
  | c :: t => if c = '\n' then collapseGo (k + 1) t else emitNL k ++ (c :: collapseGo 0 t)

/-- The newline cleanup of line 117. -/
def collapseNL (l : List Char) : List Char := collapseGo 0 l

/-- Length of the leading newline run. -/
def nlRun : List Char → Nat
  | c :: t => if c = '\n' then nlRun t + 1 else 0
  | [] => 0

/-- The substitution `re.sub(r'\n{3,}', '\n\n', ...)` as a relation on
character lists: characters other than maximal newline runs are kept,
a maximal run of one or two newlines is kept, a maximal run of three
or more newlines becomes exactly two. -/
inductive NLCollapsed : List Char → List Char → Prop where
  | nil : NLCollapsed [] []
  | other {c : Char} {s t : List Char} : c ≠ '\n' → NLCollapsed s t →
      NLCollapsed (c :: s) (c :: t)
  | short {k : Nat} {s t : List Char} : 1 ≤ k → k ≤ 2 → headIsNL s = false → NLCollapsed s t →
      NLCollapsed (List.replicate k '\n' ++ s) (List.replicate k '\n' ++ t)
  | long {k : Nat} {s t : List Char} : 3 ≤ k → headIsNL s = false → NLCollapsed s t →
      NLCollapsed (List.replicate k '\n' ++ s) (List.replicate 2 '\n' ++ t)

/-- Models `html_to_markdown`: title extraction plus the code-preserving
conversion pipeline plus the newline cleanup. -/
def html_to_markdown (soup : Node) : String × String :=
  (extractTitle soup, String.mk (collapseNL (html_to_markdown_raw soup).data))

/-! ## Related-page resolver (`find_related_pages`) -/

/-- The link lines collected by the loop of lines 126-135, before
deduplication: for every anchor with an `.htm` href, the line for the
first descriptor whose URL equals the resolved href, provided that URL
is not the current page's own. -/
def relatedRaw (soup : Node) (all_pages : List PageInfo) (current_url : String) : List String :=
  (findAllByNames ["a"] soup).filterMap (fun a =>
    match getAttr a "href" with
    | some href =>
      if pyEndsWith href ".htm" then
        match all_pages.find? (fun p => p.url == urljoin current_url href
            && urljoin current_url href != current_url) with
        | some p => some ("- [" ++ p.title ++ "](" ++ basename href ++ ")")
        | none => none
      else none
    | none => none)

/-- Models `list(dict.fromkeys(l))`: drop every repetition after the
first occurrence, keeping first-seen order. -/
def dedupFirstGo (seen : List String) : List String → List String
  | [] => []
  | x :: t => if x ∈ seen then dedupFirstGo seen t else x :: dedupFirstGo (x :: seen) t

/-- Models `find_related_pages`. -/
def find_related_pages (soup : Node) (all_pages : List PageInfo) (current_url : String) : List String :=
  let related := dedupFirstGo [] (relatedRaw soup all_pages current_url)
  if related = [] then ["- None"] else related

/-! ## Metadata header builder and filename sanitizer -/

/-- Python `x or default` for an optional string: the default on `None`
and on the empty string. -/
def pyOr (s : Option String) (dflt : String) : String :=
  match s with
  | some v => if v = "" then dflt else v
  | none => dflt

/-- Models `create_metadata_header`: the fixed front-matter block, the H1
heading repeating the title, and a closing blank line. -/
def create_metadata_header (title url category : String) (subcategory : Option String)
    (related_pages : List String) : String :=
  "---\ntitle: " ++ title ++ "\nurl: " ++ url ++ "\ncategory: " ++ category
    ++ "\nsubcategory: " ++ pyOr subcategory "None" ++ "\nrelated_pages:\n"
    ++ joinWith "\n" related_pages ++ "\n---\n\n# " ++ title ++ "\n\n"

/-- The characters `re.sub(r'[\\/*?:"<>|]', '_', ...)` replaces. -/
def forbiddenChars : List Char := ['\\', '/', '*', '?', ':', '"', '<', '>', '|']

/-- Models `sanitize_filename`: the character-class substitution followed
by `.replace(' ', '_')`. -/
def sanitize_filename (filename : String) : String :=
  String.mk ((filename.data.map (fun c => if forbiddenChars.contains c then '_' else c)).map
    (fun c => if c = ' ' then '_' else c))

/-- The per-character replacement the spec describes: underscore for the
nine forbidden characters and the space, identity elsewhere. -/
def sanitizeSpecChar (c : Char) : Char :=
  if forbiddenChars.contains c then '_' else if c = ' ' then '_' else c

/-! ## Orchestrator (`extract_zorro_documentation`) -/

/-- One observable event of the orchestrator run. -/
inductive RunEvent (σ : Type) where
  | processed (p : PageInfo) (v : σ)
  | failed (p : PageInfo) (msg : String)
  | indexGenerated
deriving DecidableEq, Repr

/-- The console line of the `except` handler on line 305. -/
def errLine (p : PageInfo) (e : String) : String :=
  "Error processing " ++ p.url ++ ": " ++ e

/-- The try/except body of lines 260-305: the per-page work (fetch,
convert, resolve, build header, write — all effectful, so abstracted
as a step function into `Except`) either succeeds or is caught and
logged with the page URL and the exception message. -/
def pageEvent {σ : Type} (step : PageInfo → Except String σ) (p : PageInfo) : RunEvent σ :=
  match step p with
  | .ok v => .processed p v
  | .error e => .failed p (errLine p e)

/-- The per-page loop of line 259, in list order. -/
def extractGo {σ : Type} (step : PageInfo → Except String σ) : List PageInfo → List (RunEvent σ)
  | [] => []
  | p :: t => pageEvent step p :: extractGo step t

/-- Models `extract_zorro_documentation` from the per-page loop on: every
descriptor is processed in order inside its own try/except, and the
index generator runs once after the loop, whatever happened before. -/
def extract_zorro_documentation {σ : Type} (step : PageInfo → Except String σ)
    (pages : List PageInfo) : List (RunEvent σ) :=
  extractGo step pages ++ [RunEvent.indexGenerated]

/-! ## Concrete inputs used by witnesses and counterexamples -/

/-- A table of contents holding a single content anchor and no category
marker, so the page is parsed while the default category `"Main"` is
unregistered. -/
def tocSoupLoneAnchor : Node :=
  Node.elem "[document]" []
    [Node.elem "a" [("class", "clsTOCItem"), ("href", "intro.htm")] [Node.text "Intro"]]

/-- A table of contents whose subcategory marker precedes any category
marker, so the subcategory name `"Sub"` is never registered. -/
def tocSoupUnregisteredSub : Node :=
  Node.elem "[document]" []
    [ Node.elem "img" [("src", "p3.gif")] []
    , Node.elem "a" [("title", "Sub")] []
    , Node.elem "a" [("class", "clsTOCItem"), ("href", "x.htm")] [Node.text "X"] ]

/-- A page whose only code region is a `pre` element with a run of four
newlines inside its text. -/
def pageSoupPreRun : Node :=
  Node.elem "html" [] [Node.elem "pre" [] [Node.text "a\n\n\n\nb"]]

/-- A page whose code sits in a `div` bearing the `wp_codebox` class. -/
def pageSoupCodebox : Node :=
  Node.elem "html" [] [Node.elem "div" [("class", "wp_codebox")] [Node.text "int w = 0;"]]

/-- A page with a `code` region nested inside a `pre` region: both are
located, but replacing the `pre` detaches the `code` before its own
turn comes. -/
def pageSoupNested : Node :=
  Node.elem "html" [] [Node.elem "pre" [] [Node.elem "code" [] [Node.text "x = 1;"]]]

/-- A page with eleven sibling `code` regions, numbered 0 to 10, so that
the placeholder of region 1 is a prefix of the placeholder of
region 10. -/
def pageSoupEleven : Node :=
  Node.elem "html" [] ((List.range 11).map (fun i => Node.elem "code" [] [Node.text (toString i)]))

/-- A loop state with category `"Basics"` registered, no subcategory. -/
def tocStRegistered : TocState :=
  { current_category := "Basics", current_subcategory := none
  , hierarchy := [("Basics", { subcategories := [], pages := [] })], doc_urls := [] }

/-- A loop state with category `"Basics"` registered and an active
subcategory `"Sub"` that is not registered under it. -/
def tocStUnregisteredSub : TocState :=
  { current_category := "Basics", current_subcategory := some "Sub"
  , hierarchy := [("Basics", { subcategories := [], pages := [] })], doc_urls := [] }

/-- The content anchor used by the step-level witnesses. -/
def tocAnchorX : Node :=
  Node.elem "a" [("class", "clsTOCItem"), ("href", "x.htm")] [Node.text "X"]

/-- A page descriptor used by witnesses. -/
def pageA : PageInfo :=
  { url := "https://zorro-project.com/manual/a.htm", title := "A"
  , category := "Main", subcategory := none, filename := "a.htm" }

/-- A second page descriptor used by witnesses. -/
def pageB : PageInfo :=
  { url := "https://zorro-project.com/manual/b.htm", title := "B"
  , category := "Main", subcategory := none, filename := "b.htm" }

/-- A step function that fails on the first witness page and succeeds on
every other. -/
def stepW : PageInfo → Except String Nat :=
  fun p => if p.url = pageA.url then Except.error "boom" else Except.ok 0

/-- A page body holding one `.htm` anchor to another known page. -/
def relSoup : Node :=
  Node.elem "html" [] [Node.elem "a" [("href", "b.htm")] [Node.text "B"]]

/-- A page with one python-marked `pre` region. -/
def soupPrePython : Node :=
  Node.elem "html" [] [Node.elem "pre" [("class", "python")] [Node.text "print(1)"]]

/-! # Theorems -/

/-! ## String and list helper lemmas -/

theorem str_data_append (a b : String) : (a ++ b).data = a.data ++ b.data := by
  cases a; cases b; rfl

theorem str_mk_data (s : String) : String.mk s.data = s := by
  cases s; rfl

theorem str_ext {a b : String} (h : a.data = b.data) : a = b := by
  cases a; cases b; exact congrArg String.mk h

theorem isPrefixOf_append_left : ∀ p a b : List Char,
    p.isPrefixOf a = true → p.isPrefixOf (a ++ b) = true := by
  intro p
  induction p with
  | nil => intro a b _; simp [List.isPrefixOf]
  | cons c p ih =>
    intro a b h
    cases a with
    | nil => simp [List.isPrefixOf] at h
    | cons d a =>
      simp only [List.isPrefixOf, Bool.and_eq_true, beq_iff_eq] at h
      simp only [List.cons_append, List.isPrefixOf, Bool.and_eq_true, beq_iff_eq]
      exact ⟨h.1, ih a b h.2⟩

/-! ## Sanitizer lemmas (C4, C10) -/

theorem sanitizeSpecChar_idem (c : Char) :
    sanitizeSpecChar (sanitizeSpecChar c) = sanitizeSpecChar c := by
  by_cases h : forbiddenChars.contains c = true
  · have h1 : sanitizeSpecChar c = '_' := by unfold sanitizeSpecChar; rw [if_pos h]
    rw [h1]; decide
  · by_cases h2 : c = ' '
    · have h1 : sanitizeSpecChar c = '_' := by
        unfold sanitizeSpecChar; rw [if_neg h, if_pos h2]
      rw [h1]; decide
    · have h1 : sanitizeSpecChar c = c := by
        unfold sanitizeSpecChar; rw [if_neg h, if_neg h2]
      rw [h1]; exact h1

theorem sanitize_filename_data (x : String) :
    (sanitize_filename x).data = x.data.map sanitizeSpecChar := by
  show (x.data.map _).map _ = _
  rw [List.map_map]
  refine List.map_congr_left ?_
  intro c _
  simp only [Function.comp]
  unfold sanitizeSpecChar
  by_cases h : forbiddenChars.contains c = true
  · rw [if_pos h, if_pos h]; decide
  · rw [if_neg h, if_neg h]

/-- C4: `sanitize_filename` is deterministic, and its result is the input
with every character of the forbidden set and every space replaced by
an underscore, all other characters unchanged. -/
theorem sanitize_filename_spec (x : String) :
    sanitize_filename x = sanitize_filename x
    ∧ (sanitize_filename x).data = x.data.map sanitizeSpecChar :=
  ⟨rfl, sanitize_filename_data x⟩

/-- C10: `sanitize_filename` is idempotent, because the replacement
character underscore is neither in the forbidden set nor a space. -/
theorem sanitize_filename_idempotent (x : String) :
    sanitize_filename (sanitize_filename x) = sanitize_filename x := by
  apply str_ext
  rw [sanitize_filename_data, sanitize_filename_data, List.map_map]
  refine List.map_congr_left ?_
  intro c _
  exact sanitizeSpecChar_idem c

/-! ## Metadata header (C8) -/

/-- C8: the header builder is a pure formatting function producing
exactly the fields title, url, category, subcategory (the literal
string `"None"` when the subcategory is absent) and the related-page
lines joined by newlines, followed by an H1 heading repeating the
title and a blank line, and the body it is prepended to is left
verbatim. -/
theorem create_metadata_header_spec (title url category : String) (sub : Option String)
    (related : List String) (body : String) :
    create_metadata_header title url category sub related ++ body
      = "---\ntitle: " ++ title ++ "\nurl: " ++ url ++ "\ncategory: " ++ category
        ++ "\nsubcategory: " ++ pyOr sub "None" ++ "\nrelated_pages:\n"
        ++ joinWith "\n" related ++ "\n---\n\n# " ++ title ++ "\n\n" ++ body
    ∧ pyOr none "None" = "None" :=
  ⟨rfl, rfl⟩

/-! ## Orchestrator lemmas (C9) -/

theorem extractGo_length {σ : Type} (step : PageInfo → Except String σ) :
    ∀ pages, (extractGo step pages).length = pages.length := by
  intro pages
  induction pages with
  | nil => rfl
  | cons p t ih => simp [extractGo, ih]

theorem extractGo_getElem {σ : Type} (step : PageInfo → Except String σ) :
    ∀ (pages : List PageInfo) (i : Nat) (p : PageInfo), pages[i]? = some p →
      (extractGo step pages)[i]? = some (pageEvent step p) := by
  intro pages
  induction pages with
  | nil => intro i p h; simp at h
  | cons q t ih =>
    intro i p h
    cases i with
    | zero => simp at h; subst h; simp [extractGo]
    | succ n =>
      simp only [List.getElem?_cons_succ] at h
      simpa only [extractGo, List.getElem?_cons_succ] using ih n p h

theorem extractGo_no_index {σ : Type} (step : PageInfo → Except String σ) :
    ∀ pages, ∀ e ∈ extractGo step pages, e ≠ RunEvent.indexGenerated := by
  intro pages
  induction pages with
  | nil => intro e he; simp [extractGo] at he
  | cons q t ih =>
    intro e he
    simp only [extractGo, List.mem_cons] at he
    rcases he with he | he
    · subst he
      cases hq : step q <;> simp [pageEvent, hq]
    · exact ih e he

/-- C9: every descriptor is processed inside its own per-page boundary,
a failing page is logged with its URL and exception message,
processing continues with the next descriptor in list order, and the
index generator runs exactly once, at the end, however many pages
failed. -/
theorem extract_zorro_documentation_spec {σ : Type} (step : PageInfo → Except String σ)
    (pages : List PageInfo) :
    (extract_zorro_documentation step pages).length = pages.length + 1
    ∧ (extract_zorro_documentation step pages).getLast? = some RunEvent.indexGenerated
    ∧ (∀ e ∈ extractGo step pages, e ≠ RunEvent.indexGenerated)
    ∧ (∀ (i : Nat) (p : PageInfo), pages[i]? = some p →
        (extract_zorro_documentation step pages)[i]? = some (pageEvent step p))
    ∧ (∀ (i : Nat) (p : PageInfo) (e : String), pages[i]? = some p → step p = Except.error e →
        (extract_zorro_documentation step pages)[i]?
          = some (RunEvent.failed (σ := σ) p (errLine p e))) := by
  have hlen : (extractGo step pages).length = pages.length := extractGo_length step pages
  have hget : ∀ (i : Nat) (p : PageInfo), pages[i]? = some p →
      (extract_zorro_documentation step pages)[i]? = some (pageEvent step p) := by
    intro i p h
    have hi : i < (extractGo step pages).length := by
      rw [hlen]
      exact (List.getElem?_eq_some_iff.mp h).1
    unfold extract_zorro_documentation
    rw [List.getElem?_append_left hi]
    exact extractGo_getElem step pages i p h
  refine ⟨?_, ?_, extractGo_no_index step pages, hget, ?_⟩
  · unfold extract_zorro_documentation
    rw [List.length_append, hlen]
    rfl
  · unfold extract_zorro_documentation
    exact List.getLast?_concat _
  · intro i p e h hs
    have := hget i p h
    rw [this]
    unfold pageEvent
    rw [hs]

/-- Witness for C9: with a two-page list whose first page's step fails,
the run's first event is the logged failure carrying the page URL and
the message, and processing still reached the second page (the event
list has length three, ending in index generation). -/
theorem extract_zorro_documentation_spec_witness :
    (extract_zorro_documentation stepW [pageA, pageB])[0]?
      = some (RunEvent.failed pageA (errLine pageA "boom")) :=
  (extract_zorro_documentation_spec stepW [pageA, pageB]).2.2.2.2 0 pageA "boom" rfl rfl

/-! ## Table-of-contents lemmas (C2, C3) -/

theorem anchorMatch_elim {el : Node} (hm : anchorMatch el = true) :
    nodeName el = "a" ∧ getClasses el = some ["clsTOCItem"]
      ∧ ∃ url, getAttr el "href" = some url ∧ pyEndsWith url ".htm" = true := by
  unfold anchorMatch at hm
  simp only [Bool.and_eq_true, decide_eq_true_eq, beq_iff_eq] at hm
  obtain ⟨⟨h1, h2⟩, h3⟩ := hm
  refine ⟨h1, h2, ?_⟩
  cases h : getAttr el "href" with
  | none => rw [h] at h3; cases h3
  | some url =>
    rw [h] at h3
    exact ⟨url, rfl, h3⟩

theorem tocStep_of_anchor (st : TocState) (el : Node) (next : Option Node) (url : String)
    (hm : anchorMatch el = true) (hh : getAttr el "href" = some url) :
    tocStep st el next
      = { st with doc_urls := st.doc_urls ++ [mkPageInfo st el url]
                , hierarchy := addPageToHierarchy st.hierarchy st.current_category
                    st.current_subcategory (mkPageInfo st el url) } := by
  obtain ⟨h1, h2, url2, hh2, he⟩ := anchorMatch_elim hm
  rw [hh] at hh2
  injection hh2 with hurl
  subst hurl
  have himg4 : isImgWith el "p4.gif" = false := by simp [isImgWith, h1]
  have himg3 : isImgWith el "p3.gif" = false := by simp [isImgWith, h1]
  simp [tocStep, himg4, himg3, h1, h2, hh, he]

theorem tocStep_doc_urls_of_not_anchor (st : TocState) (el : Node) (next : Option Node)
    (hm : anchorMatch el = false) :
    (tocStep st el next).doc_urls = st.doc_urls := by
  unfold tocStep
  by_cases hA : isImgWith el "p4.gif" = true
  · rw [if_pos hA]
    cases next with
    | none => rfl
    | some nx =>
      dsimp only
      by_cases hB : nodeName nx = "a"
      · rw [if_pos hB]
      · rw [if_neg hB]
  · rw [if_neg hA]
    by_cases hC : isImgWith el "p3.gif" = true
    · rw [if_pos hC]
      cases next with
      | none => rfl
      | some nx =>
        dsimp only
        by_cases hB : nodeName nx = "a"
        · rw [if_pos hB]
        · rw [if_neg hB]
    · rw [if_neg hC]
      by_cases hD : (nodeName el = "a" && getClasses el == some ["clsTOCItem"]) = true
      · rw [if_pos hD]
        cases hre : getAttr el "href" with
        | none => rfl
        | some url =>
          dsimp only
          by_cases hE : pyEndsWith url ".htm" = true
          · exfalso
            unfold anchorMatch at hm
            rw [hre] at hm
            rw [hD] at hm
            simp [hE] at hm
          · rw [if_neg hE]
      · rw [if_neg hD]

theorem tocLoop_doc_urls_length : ∀ (els : List Node) (st : TocState),
    (tocLoop st els).doc_urls.length
      = st.doc_urls.length + (els.filter anchorMatch).length := by
  intro els
  induction els with
  | nil => intro st; simp [tocLoop]
  | cons el rest ih =>
    intro st
    show (tocLoop (tocStep st el rest.head?) rest).doc_urls.length = _
    rw [ih]
    by_cases hm : anchorMatch el = true
    · obtain ⟨h1, h2, url, hh, he⟩ := anchorMatch_elim hm
      rw [tocStep_of_anchor st el rest.head? url hm hh]
      simp [List.filter_cons, hm]
      omega
    · have hm' : anchorMatch el = false := by simpa using hm
      rw [tocStep_doc_urls_of_not_anchor st el rest.head? hm']
      simp [List.filter_cons, hm']

theorem urljoin_base_abs (url : String) :
    pyStartsWith (if pyStartsWith url "http" then url else urljoin BASE_URL url) "http" = true := by
  by_cases h : pyStartsWith url "http" = true
  · rw [if_pos h]; exact h
  · rw [if_neg h]
    unfold urljoin
    rw [if_neg h]
    unfold pyStartsWith
    rw [str_data_append]
    have h1 : upToLastSlash BASE_URL = BASE_URL := by decide
    rw [h1]
    exact isPrefixOf_append_left _ _ _ (by decide)

theorem mkPageInfo_url_abs (st : TocState) (el : Node) (url : String) :
    pyStartsWith (mkPageInfo st el url).url "http" = true :=
  urljoin_base_abs url

theorem tocLoop_urls_abs : ∀ (els : List Node) (st : TocState),
    (∀ p ∈ st.doc_urls, pyStartsWith p.url "http" = true) →
    ∀ p ∈ (tocLoop st els).doc_urls, pyStartsWith p.url "http" = true := by
  intro els
  induction els with
  | nil => intro st h; exact h
  | cons el rest ih =>
    intro st h
    refine ih (tocStep st el rest.head?) ?_
    intro p hp
    by_cases hm : anchorMatch el = true
    · obtain ⟨h1, h2, url, hh, he⟩ := anchorMatch_elim hm
      rw [tocStep_of_anchor st el rest.head? url hm hh] at hp
      have hp' : p ∈ st.doc_urls ++ [mkPageInfo st el url] := hp
      rcases List.mem_append.mp hp' with h' | h'
      · exact h p h'
      · rw [List.mem_singleton.mp h']
        exact mkPageInfo_url_abs st el url
    · have hm' : anchorMatch el = false := by simpa using hm
      have hp' : p ∈ st.doc_urls := by
        rw [tocStep_doc_urls_of_not_anchor st el rest.head? hm'] at hp
        exact hp
      exact h p hp'

/-- C2 (amended): every anchor of the TOC markup bearing the item class
with an `.htm` href yields exactly one PageDescriptor, whose URL is
absolute, appended to the flat descriptor list; it is also appended to
the Hierarchy at the current (category, subcategory) position — under
the subcategory when one is active and registered, under the
category's direct page list otherwise — but only when the current
category is itself registered in the Hierarchy; when it is not, the
descriptor is left out of the Hierarchy entirely. -/
theorem get_doc_urls_anchor_spec :
    (∀ soup : Node,
        ((get_doc_urls soup).1).length
          = ((findAllByNames ["img", "a"] soup).filter anchorMatch).length
        ∧ ∀ p ∈ (get_doc_urls soup).1, pyStartsWith p.url "http" = true)
    ∧ (∀ (st : TocState) (el : Node) (next : Option Node) (url : String),
        anchorMatch el = true → getAttr el "href" = some url →
          (tocStep st el next).doc_urls = st.doc_urls ++ [mkPageInfo st el url]
          ∧ pyStartsWith (mkPageInfo st el url).url "http" = true
          ∧ (assocMem st.hierarchy st.current_category = false →
              (tocStep st el next).hierarchy = st.hierarchy)
          ∧ (assocMem st.hierarchy st.current_category = true →
              ((truthySub st.current_subcategory
                  && assocMem (subcatsOf st.hierarchy st.current_category)
                      (st.current_subcategory.getD "")) = true →
                (tocStep st el next).hierarchy
                  = assocModify st.hierarchy st.current_category (fun cd =>
                      { cd with subcategories := assocModify cd.subcategories
                                                   (st.current_subcategory.getD "")
                                                   (fun l => l ++ [mkPageInfo st el url]) }))
              ∧ ((truthySub st.current_subcategory
                  && assocMem (subcatsOf st.hierarchy st.current_category)
                      (st.current_subcategory.getD "")) = false →
                (tocStep st el next).hierarchy
                  = assocModify st.hierarchy st.current_category (fun cd =>
                      { cd with pages := cd.pages ++ [mkPageInfo st el url] })))) := by
  constructor
  · intro soup
    constructor
    · show (tocLoop tocInit _).doc_urls.length = _
      rw [tocLoop_doc_urls_length]
      simp [tocInit]
    · intro p hp
      refine tocLoop_urls_abs _ tocInit ?_ p hp
      intro q hq
      simp [tocInit] at hq
  · intro st el next url hm hh
    rw [tocStep_of_anchor st el next url hm hh]
    refine ⟨rfl, mkPageInfo_url_abs st el url, ?_, ?_⟩
    · intro hmem
      show addPageToHierarchy st.hierarchy st.current_category st.current_subcategory
          (mkPageInfo st el url) = st.hierarchy
      unfold addPageToHierarchy
      rw [if_neg (by simp [hmem])]
    · intro hmem
      constructor
      · intro hsub
        show addPageToHierarchy st.hierarchy st.current_category st.current_subcategory
            (mkPageInfo st el url) = _
        unfold addPageToHierarchy
        rw [if_pos hmem, if_pos hsub]
      · intro hsub
        show addPageToHierarchy st.hierarchy st.current_category st.current_subcategory
            (mkPageInfo st el url) = _
        unfold addPageToHierarchy
        rw [if_pos hmem, if_neg (by simp [hsub])]

/-- Witness for C2: a matching anchor processed while category `"Basics"`
is registered appends exactly its descriptor to the flat list. -/
theorem get_doc_urls_anchor_spec_witness :
    (tocStep tocStRegistered tocAnchorX none).doc_urls
      = tocStRegistered.doc_urls ++ [mkPageInfo tocStRegistered tocAnchorX "x.htm"] :=
  (get_doc_urls_anchor_spec.2 tocStRegistered tocAnchorX none "x.htm" (by decide) rfl).1

/-- Counterexample for C2 as stated: a lone content anchor parsed under
the never-registered default category `"Main"` yields its descriptor
in the flat list, but the Hierarchy stays empty, so the descriptor is
appended to the Hierarchy at no (category, subcategory) position. -/
theorem get_doc_urls_anchor_cex :
    (get_doc_urls tocSoupLoneAnchor).1
      = [{ url := "https://zorro-project.com/manual/intro.htm", title := "Intro"
         , category := "Main", subcategory := none, filename := "intro.htm" }]
    ∧ (get_doc_urls tocSoupLoneAnchor).2 = [] :=
  ⟨rfl, rfl⟩

/-- C3 (amended): a page anchor processed while the subcategory cursor is
set to a name not registered under the current category is appended to
the flat list without error; it lands in the current category's direct
page list when that category is registered in the Hierarchy, and is
left out of the Hierarchy entirely when it is not. -/
theorem toc_unregistered_subcategory_spec (st : TocState) (el : Node) (next : Option Node)
    (url : String) (hm : anchorMatch el = true) (hh : getAttr el "href" = some url)
    (_hsub : truthySub st.current_subcategory = true)
    (hnreg : assocMem (subcatsOf st.hierarchy st.current_category)
        (st.current_subcategory.getD "") = false) :
    (tocStep st el next).doc_urls = st.doc_urls ++ [mkPageInfo st el url]
    ∧ (assocMem st.hierarchy st.current_category = true →
        (tocStep st el next).hierarchy
          = assocModify st.hierarchy st.current_category
              (fun cd => { cd with pages := cd.pages ++ [mkPageInfo st el url] }))
    ∧ (assocMem st.hierarchy st.current_category = false →
        (tocStep st el next).hierarchy = st.hierarchy) := by
  rw [tocStep_of_anchor st el next url hm hh]
  refine ⟨rfl, ?_, ?_⟩
  · intro hmem
    show addPageToHierarchy st.hierarchy st.current_category st.current_subcategory
        (mkPageInfo st el url) = _
    unfold addPageToHierarchy
    rw [if_pos hmem, if_neg (by simp [hnreg])]
  · intro hmem
    show addPageToHierarchy st.hierarchy st.current_category st.current_subcategory
        (mkPageInfo st el url) = st.hierarchy
    unfold addPageToHierarchy
    rw [if_neg (by simp [hmem])]

/-- Witness for C3: with category `"Basics"` registered and the active
subcategory `"Sub"` unregistered, the anchor's page joins the
category's direct page list. -/
theorem toc_unregistered_subcategory_spec_witness :
    (tocStep tocStUnregisteredSub tocAnchorX none).hierarchy
      = assocModify tocStUnregisteredSub.hierarchy "Basics"
          (fun cd => { cd with pages :=
              cd.pages ++ [mkPageInfo tocStUnregisteredSub tocAnchorX "x.htm"] }) :=
  (toc_unregistered_subcategory_spec tocStUnregisteredSub tocAnchorX none "x.htm"
    (by decide) rfl (by decide) (by decide)).2.1 (by decide)

/-- Counterexample for C3 as stated: a page seen after the subcategory
marker `"Sub"`, which was never registered because no category was,
is appended to the flat list, but the Hierarchy stays empty — the
descriptor lands in no category's direct page list. -/
theorem toc_unregistered_subcategory_cex :
    (tocLoop tocInit (findAllByNames ["img", "a"] tocSoupUnregisteredSub)).current_subcategory
      = some "Sub"
    ∧ (get_doc_urls tocSoupUnregisteredSub).1.length = 1
    ∧ (get_doc_urls tocSoupUnregisteredSub).2 = [] :=
  ⟨rfl, rfl, rfl⟩

/-! ## Newline-collapse lemmas (C5, C1) -/

theorem headIsNL_cons (c : Char) (t : List Char) :
    headIsNL (c :: t) = decide (c = '\n') := rfl

theorem hasTripleNL_cons (a : Char) (t : List Char) :
    hasTripleNL (a :: t)
      = ((a = '\n' && headIsNL t && headIsNL t.tail) || hasTripleNL t) := rfl

theorem hasTripleNL_cons_of_ne {c : Char} (h : c ≠ '\n') (t : List Char) :
    hasTripleNL (c :: t) = hasTripleNL t := by
  rw [hasTripleNL_cons]
  simp [h]

theorem hasTripleNL_tail {c : Char} {t : List Char} (h : hasTripleNL (c :: t) = false) :
    hasTripleNL t = false := by
  cases hT : hasTripleNL t
  · rfl
  · rw [hasTripleNL_cons, hT] at h
    simp at h

theorem hasTripleNL_suffix : ∀ (a b : List Char),
    hasTripleNL (a ++ b) = false → hasTripleNL b = false := by
  intro a
  induction a with
  | nil => intro b h; exact h
  | cons x a ih => intro b h; exact ih b (hasTripleNL_tail h)

theorem nlRun_decomp : ∀ l : List Char,
    l = List.replicate (nlRun l) '\n' ++ l.drop (nlRun l)
    ∧ headIsNL (l.drop (nlRun l)) = false := by
  intro l
  induction l with
  | nil => exact ⟨rfl, rfl⟩
  | cons c t ih =>
    by_cases hc : c = '\n'
    · subst hc
      have hr : nlRun ('\n' :: t) = nlRun t + 1 := by simp [nlRun]
      rw [hr]
      constructor
      · rw [List.replicate_succ, List.drop_succ_cons, List.cons_append]
        exact congrArg _ ih.1
      · rw [List.drop_succ_cons]
        exact ih.2
    · have h0 : nlRun (c :: t) = 0 := by simp [nlRun, hc]
      rw [h0]
      exact ⟨rfl, by simpa [headIsNL] using hc⟩

theorem collapseGo_replicate : ∀ (k j : Nat) (rest : List Char),
    collapseGo j (List.replicate k '\n' ++ rest) = collapseGo (j + k) rest := by
  intro k
  induction k with
  | zero => intro j rest; simp [List.replicate]
  | succ k ih =>
    intro j rest
    rw [List.replicate_succ, List.cons_append]
    rw [show collapseGo j ('\n' :: (List.replicate k '\n' ++ rest))
          = collapseGo (j + 1) (List.replicate k '\n' ++ rest) from by simp [collapseGo]]
    rw [ih (j + 1) rest]
    congr 1
    omega

theorem collapseGo_head_ne (k : Nat) {rest : List Char} (h : headIsNL rest = false) :
    collapseGo k rest = emitNL k ++ collapseNL rest := by
  cases rest with
  | nil => simp [collapseGo, collapseNL, emitNL]
  | cons c t =>
    have hc : c ≠ '\n' := by simpa [headIsNL] using h
    simp [collapseGo, collapseNL, hc, emitNL]

theorem NLCollapsed_collapseNL_aux : ∀ (n : Nat) (l : List Char), l.length = n →
    NLCollapsed l (collapseNL l) := by
  intro n
  induction n using Nat.strong_induction_on with
  | _ n ih =>
    intro l hl
    cases l with
    | nil => exact NLCollapsed.nil
    | cons c t =>
      by_cases hc : c = '\n'
      · subst hc
        obtain ⟨hdec, hhead⟩ := nlRun_decomp ('\n' :: t)
        have hk : 1 ≤ nlRun ('\n' :: t) := by simp [nlRun]
        set k := nlRun ('\n' :: t) with hkdef
        set rest := ('\n' :: t).drop k with hrestdef
        have hlen : rest.length < ('\n' :: t).length := by
          rw [hrestdef, List.length_drop]
          simp only [List.length_cons]
          omega
        have hcoll : collapseNL ('\n' :: t) = emitNL k ++ collapseNL rest := by
          show collapseGo 0 ('\n' :: t) = _
          conv_lhs => rw [hdec]
          rw [collapseGo_replicate k 0 rest, Nat.zero_add]
          exact collapseGo_head_ne k hhead
        rw [hcoll]
        have ihrest : NLCollapsed rest (collapseNL rest) :=
          ih rest.length (by rw [← hl]; exact hlen) rest rfl
        by_cases h3 : 3 ≤ k
        · have he : emitNL k = List.replicate 2 '\n' := if_pos h3
          rw [he, hdec]
          exact NLCollapsed.long h3 hhead ihrest
        · have hk2 : k ≤ 2 := by omega
          have he : emitNL k = List.replicate k '\n' := if_neg h3
          rw [he, hdec]
          exact NLCollapsed.short hk hk2 hhead ihrest
      · have hcoll : collapseNL (c :: t) = c :: collapseNL t := by
          simp [collapseNL, collapseGo, hc, emitNL]
        rw [hcoll]
        refine NLCollapsed.other hc (ih t.length ?_ t rfl)
        rw [← hl]
        simp only [List.length_cons]
        omega

theorem NLCollapsed_collapseNL (l : List Char) : NLCollapsed l (collapseNL l) :=
  NLCollapsed_collapseNL_aux l.length l rfl

theorem NLCollapsed_headIsNL {s t : List Char} (h : NLCollapsed s t) :
    headIsNL s = headIsNL t := by
  cases h with
  | nil => rfl
  | other hc hrel => rfl
  | @short k s t hk1 hk2 hh hrel =>
    obtain ⟨j, rfl⟩ : ∃ j, k = j + 1 := ⟨k - 1, by omega⟩
    simp [List.replicate_succ, headIsNL]
  | @long k s t hk3 hh hrel =>
    obtain ⟨j, rfl⟩ : ∃ j, k = j + 1 := ⟨k - 1, by omega⟩
    simp [List.replicate_succ, headIsNL]

theorem hasTripleNL_of_NLCollapsed {s t : List Char} (h : NLCollapsed s t) :
    hasTripleNL t = false := by
  induction h with
  | nil => rfl
  | other hc hrel ih =>
    rw [hasTripleNL_cons_of_ne hc]
    exact ih
  | @short k s t hk1 hk2 hh hrel ih =>
    have hht : headIsNL t = false := by rw [← NLCollapsed_headIsNL hrel]; exact hh
    interval_cases k
    · simp [List.replicate_succ, List.replicate_zero, hasTripleNL_cons, headIsNL_cons,
        List.tail_cons, hht, ih]
    · simp [List.replicate_succ, List.replicate_zero, hasTripleNL_cons, headIsNL_cons,
        List.tail_cons, hht, ih]
  | @long k s t hk3 hh hrel ih =>
    have hht : headIsNL t = false := by rw [← NLCollapsed_headIsNL hrel]; exact hh
    simp [List.replicate_succ, List.replicate_zero, hasTripleNL_cons, headIsNL_cons,
      List.tail_cons, hht, ih]

theorem collapseNL_noTriple (l : List Char) : hasTripleNL (collapseNL l) = false :=
  hasTripleNL_of_NLCollapsed (NLCollapsed_collapseNL l)

/-- C5: in the Markdown string the Content Converter returns, every
maximal run of three or more consecutive newlines of the pre-cleanup
text has been replaced by exactly two newlines, shorter runs and all
other characters being kept, and no run of three or more consecutive
newlines remains in the output. -/
theorem html_to_markdown_newline_cleanup (soup : Node) :
    NLCollapsed (html_to_markdown_raw soup).data ((html_to_markdown soup).2).data
    ∧ hasTripleNL ((html_to_markdown soup).2).data = false :=
  ⟨NLCollapsed_collapseNL _, collapseNL_noTriple _⟩

/-! ## Code-region preservation lemmas (C1) -/

theorem collapseGo_eq_self : ∀ (l : List Char) (k : Nat), k ≤ 2 →
    hasTripleNL (List.replicate k '\n' ++ l) = false →
    collapseGo k l = List.replicate k '\n' ++ l := by
  intro l
  induction l with
  | nil =>
    intro k hk _
    show emitNL k = _
    rw [show emitNL k = List.replicate k '\n' from if_neg (by omega)]
    simp
  | cons c t ih =>
    intro k hk htr
    by_cases hc : c = '\n'
    · subst hc
      have heq : List.replicate k '\n' ++ '\n' :: t = List.replicate (k + 1) '\n' ++ t := by
        rw [List.replicate_succ', List.append_assoc]
        rfl
      have hk1 : k + 1 ≤ 2 := by
        by_contra hcon
        have hk2 : k = 2 := by omega
        subst hk2
        rw [heq] at htr
        simp [List.replicate_succ, List.replicate_zero, hasTripleNL_cons, headIsNL_cons,
          List.tail_cons] at htr
      show collapseGo (k + 1) t = _
      rw [heq, ih (k + 1) hk1 (by rw [← heq]; exact htr)]
    · have h1 : collapseGo k (c :: t) = emitNL k ++ (c :: collapseGo 0 t) := by
        simp [collapseGo, hc]
      have htt : hasTripleNL t = false :=
        hasTripleNL_tail (hasTripleNL_suffix _ _ htr)
      rw [h1, ih 0 (by omega) (by simpa using htt)]
      rw [show emitNL k = List.replicate k '\n' from if_neg (by omega)]
      simp

theorem collapseNL_eq_self {l : List Char} (h : hasTripleNL l = false) : collapseNL l = l := by
  have := collapseGo_eq_self l 0 (by omega) (by simpa using h)
  simpa using this

theorem hasTriple_peel : ∀ (P M : List Char), (∀ c ∈ P, c ≠ '\n') →
    hasTripleNL (P ++ M) = hasTripleNL M := by
  intro P
  induction P with
  | nil => intro M _; rfl
  | cons c P ih =>
    intro M hP
    have hc : c ≠ '\n' := hP c (by simp)
    rw [List.cons_append, hasTripleNL_cons_of_ne hc, ih M (fun d hd => hP d (by simp [hd]))]

theorem hasTriple_append_fence_end : ∀ (t : List Char), hasTripleNL t = false →
    (∀ c, t.getLast? = some c → c ≠ '\n') →
    hasTripleNL (t ++ ['\n', '`', '`', '`', '\n', '\n']) = false := by
  intro t
  induction t with
  | nil => intro _ _; decide
  | cons x t ih =>
    intro h hlast
    cases t with
    | nil =>
      have hx : x ≠ '\n' := hlast x rfl
      rw [show ([x] ++ ['\n', '`', '`', '`', '\n', '\n'])
            = x :: ['\n', '`', '`', '`', '\n', '\n'] from rfl]
      rw [hasTripleNL_cons_of_ne hx]
      decide
    | cons y t2 =>
      have hh2 : hasTripleNL (y :: t2) = false := hasTripleNL_tail h
      have hl2 : ∀ c, (y :: t2).getLast? = some c → c ≠ '\n' := by
        intro c hc
        exact hlast c (by rw [List.getLast?_cons_cons]; exact hc)
      have hrec := ih hh2 hl2
      rw [show ((x :: y :: t2) ++ ['\n', '`', '`', '`', '\n', '\n'])
            = x :: ((y :: t2) ++ ['\n', '`', '`', '`', '\n', '\n']) from rfl]
      rw [hasTripleNL_cons, hrec, Bool.or_false]
      rw [show ((y :: t2) ++ ['\n', '`', '`', '`', '\n', '\n'])
            = y :: (t2 ++ ['\n', '`', '`', '`', '\n', '\n']) from rfl]
      rw [headIsNL_cons, List.tail_cons]
      by_cases hy : y = '\n'
      · cases t2 with
        | nil => exact absurd hy (hl2 y (by simp))
        | cons z t3 =>
          rw [show ((z :: t3) ++ ['\n', '`', '`', '`', '\n', '\n'])
                = z :: (t3 ++ ['\n', '`', '`', '`', '\n', '\n']) from rfl]
          rw [headIsNL_cons]
          by_cases hz : z = '\n'
          · by_cases hx : x = '\n'
            · exfalso
              rw [hasTripleNL_cons] at h
              simp [hx, hy, hz, headIsNL_cons, List.tail_cons] at h
            · simp [hx]
          · simp [hz]
      · simp [hy]

theorem hasTriple_nl_front (mid : List Char) (hh : headIsNL mid = false)
    (hmB : hasTripleNL (mid ++ ['\n', '`', '`', '`', '\n', '\n']) = false) :
    hasTripleNL ('\n' :: (mid ++ ['\n', '`', '`', '`', '\n', '\n'])) = false := by
  cases mid with
  | nil => decide
  | cons c t =>
    have hc : c ≠ '\n' := by simpa [headIsNL_cons] using hh
    rw [show ((c :: t) ++ ['\n', '`', '`', '`', '\n', '\n'])
          = c :: (t ++ ['\n', '`', '`', '`', '\n', '\n']) from rfl] at hmB ⊢
    rw [hasTripleNL_cons, headIsNL_cons]
    simp [hc, hmB]

theorem dropWhile_head_not (p : Char → Bool) : ∀ (l : List Char) (c : Char),
    (l.dropWhile p).head? = some c → p c = false := by
  intro l
  induction l with
  | nil => intro c h; simp at h
  | cons x t ih =>
    intro c h
    by_cases hx : p x = true
    · rw [List.dropWhile_cons, if_pos hx] at h
      exact ih c h
    · rw [List.dropWhile_cons, if_neg hx] at h
      simp at h
      subst h
      simpa using hx

theorem pyStripL_headIsNL (l : List Char) : headIsNL (pyStripL l) = false := by
  unfold pyStripL
  set Z := l.dropWhile isPySpace with hZ
  set W := Z.reverse.dropWhile isPySpace with hW
  cases hrev : W.reverse with
  | nil => rfl
  | cons a as =>
    rw [headIsNL_cons]
    have hWne : W ≠ [] := by
      intro hcon
      rw [hcon] at hrev
      simp at hrev
    have h1 : W.reverse.head? = W.getLast? := List.head?_reverse W
    have h2 : W.getLast? = Z.reverse.getLast? := by
      have hsuf : W <:+ Z.reverse := by rw [hW]; exact List.dropWhile_suffix _
      obtain ⟨r, hr⟩ := hsuf
      rw [← hr]
      exact (List.getLast?_append_of_ne_nil r hWne).symm
    have h3 : Z.reverse.getLast? = Z.head? := List.getLast?_reverse Z
    have ha : Z.head? = some a := by
      rw [← h3, ← h2, ← h1, hrev]
      rfl
    rw [hZ] at ha
    have hpa : isPySpace a = false := dropWhile_head_not isPySpace l a ha
    have hane : a ≠ '\n' := by
      intro hEq
      subst hEq
      simp [isPySpace] at hpa
    simp [hane]

theorem pyStripL_last (l : List Char) : ∀ c, (pyStripL l).getLast? = some c → c ≠ '\n' := by
  intro c hc
  unfold pyStripL at hc
  rw [List.getLast?_reverse] at hc
  have := dropWhile_head_not isPySpace _ c hc
  intro hEq
  subst hEq
  simp [isPySpace] at this

theorem inferLanguage_cases (el : Node) :
    inferLanguage el = "python" ∨ inferLanguage el = "javascript"
      ∨ inferLanguage el = "r" ∨ inferLanguage el = "c" := by
  unfold inferLanguage
  cases getAttr el "class" with
  | none => simp
  | some s =>
    dsimp only
    split_ifs <;> simp

theorem str_append_empty (s : String) : s ++ "" = s := by
  apply str_ext
  rw [str_data_append]
  rw [show ("" : String).data = [] from rfl]
  exact List.append_nil s.data

theorem pyReplace_ph0 (rep : String) :
    pyReplace (codePlaceholder 0 ++ "\n\n") (codePlaceholder 0) rep = rep ++ "\n\n" := by
  cases rep
  rfl

theorem fence_data (lang mid : String) :
    (("```" ++ lang ++ "\n" ++ mid ++ "\n```") ++ "\n\n").data
      = ('`' :: '`' :: '`' :: lang.data)
          ++ '\n' :: (mid.data ++ ['\n', '`', '`', '`', '\n', '\n']) := by
  simp only [str_data_append]
  simp [List.append_assoc]

theorem collapseNL_fence (lang mid : List Char)
    (hlang : ∀ c ∈ lang, c ≠ '\n')
    (hm : hasTripleNL mid = false)
    (hh : headIsNL mid = false)
    (hl : ∀ c, mid.getLast? = some c → c ≠ '\n') :
    collapseNL (('`' :: '`' :: '`' :: lang) ++ '\n' :: (mid ++ ['\n', '`', '`', '`', '\n', '\n']))
      = ('`' :: '`' :: '`' :: lang) ++ '\n' :: (mid ++ ['\n', '`', '`', '`', '\n', '\n']) := by
  apply collapseNL_eq_self
  rw [hasTriple_peel _ _ ?hP]
  case hP =>
    intro c hc
    simp only [List.mem_cons] at hc
    rcases hc with rfl | rfl | rfl | h
    · decide
    · decide
    · decide
    · exact hlang c h
  exact hasTriple_nl_front mid hh (hasTriple_append_fence_end mid hm hl)

/-- Scope of the correct behaviour behind C1: for a page whose body is a
single located region whose stripped text has no run of three or more
newlines, the round trip does hold — the output is exactly one fenced
block tagged with the inferred language holding the stripped text.
The code-bug theorem below shows each way the general claim fails. -/
theorem codeRegion_single_round_trip (nm : String) (attrs : List (String × String)) (txt : String)
    (hnm : codeSelectors.contains nm = true)
    (hnt : hasTripleNL (pyStrip txt).data = false) :
    html_to_markdown (Node.elem "html" [] [Node.elem nm attrs [Node.text txt]])
      = ("Untitled",
         "```" ++ inferLanguage (Node.elem nm attrs [Node.text txt]) ++ "\n"
           ++ pyStrip txt ++ "\n```" ++ "\n\n") := by
  have hnmt : nm ≠ "title" := by
    intro h
    rw [h] at hnm
    exact Bool.false_ne_true ((by decide : codeSelectors.contains "title" = false) ▸ hnm)
  have hmem : nm ∈ codeSelectors := by simpa using hnm
  have hft : findAllByNames ["title"] (Node.elem "html" [] [Node.elem nm attrs [Node.text txt]])
      = [] := by
    have h1 : "html" ∉ (["title"] : List String) := by decide
    have h2 : nm ∉ (["title"] : List String) := by simp [hnmt]
    simp [findAllByNames, findAllByNamesL, h1, h2, hnmt]
  have htitle : extractTitle (Node.elem "html" [] [Node.elem nm attrs [Node.text txt]])
      = "Untitled" := by
    unfold extractTitle
    rw [hft]
  have hhtml : "html" ∉ codeSelectors := by decide
  have hfind : findAllByNames codeSelectors (Node.elem "html" [] [Node.elem nm attrs [Node.text txt]])
      = [Node.elem nm attrs [Node.text txt]] := by
    simp [findAllByNames, findAllByNamesL, hhtml, hmem]
  have htext : textContent (Node.elem nm attrs [Node.text txt]) = txt := by
    simp [textContent, textContentL, str_append_empty]
  have hrepl : (replaceCodeNode codeSelectors 0
        (Node.elem "html" [] [Node.elem nm attrs [Node.text txt]])).1
      = Node.elem "html" [] [placeholderTag 0] := by
    simp [replaceCodeNode, replaceCodeL, hhtml, hmem]
  have hhp : ("html" : String) ≠ "p" := by decide
  have hh2t : h2t_handle (Node.elem "html" [] [placeholderTag 0])
      = codePlaceholder 0 ++ "\n\n" := by
    simp [h2t_handle, h2tHandleL, placeholderTag, str_append_empty, hhp]
  have hraw : html_to_markdown_raw (Node.elem "html" [] [Node.elem nm attrs [Node.text txt]])
      = fenceBlock (inferLanguage (Node.elem nm attrs [Node.text txt])) txt ++ "\n\n" := by
    unfold html_to_markdown_raw codeBlocksOf
    rw [hfind, hrepl, hh2t]
    simp only [List.map_cons, List.map_nil, htext]
    unfold restoreCodeBlocks
    simp only [List.enum, List.enumFrom, List.foldl]
    exact pyReplace_ph0 _
  show (extractTitle _, String.mk (collapseNL (html_to_markdown_raw _).data)) = _
  rw [htitle, hraw]
  refine congrArg _ ?_
  rw [show fenceBlock (inferLanguage (Node.elem nm attrs [Node.text txt])) txt ++ "\n\n"
        = ("```" ++ inferLanguage (Node.elem nm attrs [Node.text txt]) ++ "\n"
            ++ pyStrip txt ++ "\n```") ++ "\n\n" from rfl]
  rw [fence_data]
  rw [collapseNL_fence _ _ ?hlang hnt (pyStripL_headIsNL txt.data) (pyStripL_last txt.data)]
  case hlang =>
    rcases inferLanguage_cases (Node.elem nm attrs [Node.text txt]) with h | h | h | h <;>
      rw [h] <;> decide
  rw [← fence_data, str_mk_data]

/-- Instance of the single-region round trip: a page whose body is one
`code` element with text ` int x = 1; ` converts to exactly the
default-tagged fence holding `int x = 1;`. -/
theorem codeRegion_single_round_trip_instance :
    html_to_markdown (Node.elem "html" [] [Node.elem "code" [] [Node.text " int x = 1; "]])
      = ("Untitled",
         "```" ++ inferLanguage (Node.elem "code" [] [Node.text " int x = 1; "]) ++ "\n"
           ++ pyStrip " int x = 1; " ++ "\n```" ++ "\n\n") :=
  codeRegion_single_round_trip "code" [] " int x = 1; " (by decide) (by decide)

set_option maxRecDepth 40000 in
/-- C1: evaluation of the converter at the failing inputs. The claim —
every located region (pre, code, and wp_codebox-classed elements)
appears as a fenced block holding its text unaltered but for outer
trimming — states the source's evident intent, and the code breaks it
four ways. A located `pre` with text `a\n\n\n\nb` (its own trimming
fixed point) is fenced as `a\n\nb`, because the blank-line cleanup
runs after reinsertion. A `div` bearing the wp_codebox class is never
located (the selector is passed to `find_all` as a tag name): its
page converts to plain text with no fence. A `code` nested inside a
`pre` is located — two stored regions — yet the output holds exactly
the outer region's single fence, since the inner placeholder lands in
the detached tree. With eleven regions, region 10 is located with
trimmed text `10`, yet the fence holding `10` appears nowhere: the
`str.replace` for placeholder 1 corrupts placeholder 10 first. -/
theorem html_to_markdown_code_bug :
    (html_to_markdown pageSoupPreRun).2 = "```c\na\n\nb\n```\n\n"
    ∧ pyStrip "a\n\n\n\nb" = "a\n\n\n\nb"
    ∧ strContains (html_to_markdown pageSoupPreRun).2 "a\n\n\n\nb" = false
    ∧ (html_to_markdown pageSoupCodebox).2 = "int w = 0;"
    ∧ strContains (html_to_markdown pageSoupCodebox).2 "```" = false
    ∧ (codeBlocksOf pageSoupNested).length = 2
    ∧ (html_to_markdown pageSoupNested).2 = "```c\nx = 1;\n```\n\n"
    ∧ (codeBlocksOf pageSoupEleven).length = 11
    ∧ (codeBlocksOf pageSoupEleven).getLast? = some ("c", "10")
    ∧ pyStrip "10" = "10"
    ∧ strContains (html_to_markdown pageSoupEleven).2 "```c\n10\n```" = false :=
  ⟨rfl, rfl, by decide, rfl, by decide, rfl, rfl, rfl, rfl, rfl, by decide⟩

/-! ## Language inference (C7) -/

/-- C7: for every code-bearing region the converter locates, the stored
language tag is computed by the fixed precedence on the lowercased
rendering of the element's class list: a python marker wins, then a
javascript/js marker, then the R marker rsplus, and the default is
`"c"` — also when the element has no class attribute at all. -/
theorem inferLanguage_precedence (soup : Node) (i : Nat) (el : Node)
    (hel : (findAllByNames codeSelectors soup)[i]? = some el) :
    (codeBlocksOf soup)[i]? = some (inferLanguage el, textContent el)
    ∧ (inferLanguage el = "python" ∨ inferLanguage el = "javascript"
        ∨ inferLanguage el = "r" ∨ inferLanguage el = "c")
    ∧ (getAttr el "class" = none → inferLanguage el = "c")
    ∧ (∀ clsAttr, getAttr el "class" = some clsAttr →
        (strContains (pyLower (pyReprStrList (splitWs clsAttr))) "python" = true →
          inferLanguage el = "python")
        ∧ (strContains (pyLower (pyReprStrList (splitWs clsAttr))) "python" = false →
            (strContains (pyLower (pyReprStrList (splitWs clsAttr))) "javascript"
              || strContains (pyLower (pyReprStrList (splitWs clsAttr))) "js") = true →
          inferLanguage el = "javascript")
        ∧ (strContains (pyLower (pyReprStrList (splitWs clsAttr))) "python" = false →
            (strContains (pyLower (pyReprStrList (splitWs clsAttr))) "javascript"
              || strContains (pyLower (pyReprStrList (splitWs clsAttr))) "js") = false →
            strContains (pyLower (pyReprStrList (splitWs clsAttr))) "rsplus" = true →
          inferLanguage el = "r")
        ∧ (strContains (pyLower (pyReprStrList (splitWs clsAttr))) "python" = false →
            (strContains (pyLower (pyReprStrList (splitWs clsAttr))) "javascript"
              || strContains (pyLower (pyReprStrList (splitWs clsAttr))) "js") = false →
            strContains (pyLower (pyReprStrList (splitWs clsAttr))) "rsplus" = false →
          inferLanguage el = "c")) := by
  refine ⟨?_, inferLanguage_cases el, ?_, ?_⟩
  · unfold codeBlocksOf
    rw [List.getElem?_map, hel]
    rfl
  · intro h
    unfold inferLanguage
    rw [h]
  · intro clsAttr h
    refine ⟨?_, ?_, ?_, ?_⟩
    · intro hp
      unfold inferLanguage
      rw [h]
      dsimp only
      rw [if_pos hp]
    · intro hp hj
      unfold inferLanguage
      rw [h]
      dsimp only
      rw [if_neg (by simp [hp]), if_pos hj]
    · intro hp hj hr
      unfold inferLanguage
      rw [h]
      dsimp only
      rw [if_neg (by simp [hp]), if_neg (by simp [hj]), if_pos hr]
    · intro hp hj hr
      unfold inferLanguage
      rw [h]
      dsimp only
      rw [if_neg (by simp [hp]), if_neg (by simp [hj]), if_neg (by simp [hr])]

/-- Witness for C7: a `pre` element with class `python` gets the tag
`"python"`. -/
theorem inferLanguage_precedence_witness :
    inferLanguage (Node.elem "pre" [("class", "python")] [Node.text "print(1)"]) = "python" :=
  (((inferLanguage_precedence soupPrePython 0
        (Node.elem "pre" [("class", "python")] [Node.text "print(1)"]) rfl).2.2.2
      "python" rfl).1 (by decide))

/-! ## Related-page resolver (C6) -/

theorem dedupFirstGo_mem : ∀ (l seen : List String) (x : String),
    x ∈ dedupFirstGo seen l → x ∈ l := by
  intro l
  induction l with
  | nil => intro seen x h; simp [dedupFirstGo] at h
  | cons y t ih =>
    intro seen x h
    by_cases hy : y ∈ seen
    · simp only [dedupFirstGo, if_pos hy] at h
      exact List.mem_cons_of_mem y (ih seen x h)
    · simp only [dedupFirstGo, if_neg hy] at h
      rcases List.mem_cons.mp h with rfl | h2
      · simp
      · exact List.mem_cons_of_mem y (ih _ x h2)

theorem dedupFirstGo_nodup : ∀ (l seen : List String),
    (dedupFirstGo seen l).Nodup ∧ ∀ x ∈ dedupFirstGo seen l, x ∉ seen := by
  intro l
  induction l with
  | nil =>
    intro seen
    refine ⟨List.nodup_nil, ?_⟩
    intro x h
    simp [dedupFirstGo] at h
  | cons y t ih =>
    intro seen
    by_cases hy : y ∈ seen
    · refine ⟨?_, ?_⟩
      · simpa only [dedupFirstGo, if_pos hy] using (ih seen).1
      · intro x h
        simp only [dedupFirstGo, if_pos hy] at h
        exact (ih seen).2 x h
    · have heq : dedupFirstGo seen (y :: t) = y :: dedupFirstGo (y :: seen) t := by
        simp only [dedupFirstGo, if_neg hy]
      refine ⟨?_, ?_⟩
      · rw [heq]
        refine List.nodup_cons.mpr ⟨?_, (ih (y :: seen)).1⟩
        intro hcon
        have := (ih (y :: seen)).2 y hcon
        simp at this
      · intro x h
        rw [heq] at h
        rcases List.mem_cons.mp h with rfl | h2
        · exact hy
        · have hx := (ih (y :: seen)).2 x h2
          intro hc
          exact hx (by simp [hc])

/-- C6: the resolver emits link lines only for anchors whose href ends in
`.htm` and resolves to a known descriptor URL different from the
current page's own, uses the first matching descriptor in list order,
removes exact duplicate lines, never lists the page itself, and
returns the single line `- None` when nothing matches. -/
theorem find_related_pages_spec (soup : Node) (pages : List PageInfo) (cur : String) :
    (relatedRaw soup pages cur = [] → find_related_pages soup pages cur = ["- None"])
    ∧ (relatedRaw soup pages cur ≠ [] →
        (find_related_pages soup pages cur).Nodup
        ∧ ∀ line ∈ find_related_pages soup pages cur,
            ∃ a ∈ findAllByNames ["a"] soup, ∃ href,
              getAttr a "href" = some href ∧ pyEndsWith href ".htm" = true
              ∧ ∃ p, pages.find? (fun q => q.url == urljoin cur href
                      && urljoin cur href != cur) = some p
                ∧ p ∈ pages ∧ p.url = urljoin cur href ∧ p.url ≠ cur
                ∧ line = "- [" ++ p.title ++ "](" ++ basename href ++ ")") := by
  constructor
  · intro h
    unfold find_related_pages
    rw [h]
    rfl
  · intro hne
    have hnodup := (dedupFirstGo_nodup (relatedRaw soup pages cur) []).1
    have hne2 : dedupFirstGo [] (relatedRaw soup pages cur) ≠ [] := by
      cases hr : relatedRaw soup pages cur with
      | nil => exact absurd hr hne
      | cons x t => simp [dedupFirstGo]
    have hfr : find_related_pages soup pages cur
        = dedupFirstGo [] (relatedRaw soup pages cur) := by
      unfold find_related_pages
      rw [if_neg hne2]
    rw [hfr]
    refine ⟨hnodup, ?_⟩
    intro line hline
    have hmem := dedupFirstGo_mem (relatedRaw soup pages cur) [] line hline
    unfold relatedRaw at hmem
    rw [List.mem_filterMap] at hmem
    obtain ⟨a, ha, hfa⟩ := hmem
    refine ⟨a, ha, ?_⟩
    cases hattr : getAttr a "href" with
    | none =>
      simp only [hattr] at hfa
      exact Option.noConfusion hfa
    | some href =>
      simp only [hattr] at hfa
      by_cases hend : pyEndsWith href ".htm" = true
      · refine ⟨href, rfl, hend, ?_⟩
        simp only [hend, if_true] at hfa
        cases hfind : pages.find? (fun q => q.url == urljoin cur href
            && urljoin cur href != cur) with
        | none =>
          simp only [hfind] at hfa
          exact Option.noConfusion hfa
        | some p =>
          simp only [hfind, Option.some.injEq] at hfa
          have hp := List.find?_some hfind
          simp only [Bool.and_eq_true, beq_iff_eq, bne_iff_ne] at hp
          refine ⟨p, rfl, List.mem_of_find?_eq_some hfind, hp.1, ?_, hfa.symm⟩
          rw [hp.1]
          exact hp.2
      · simp only [hend] at hfa
        simp at hfa

/-- Witness for C6: a page that links to the other known page gets a
duplicate-free related list. -/
theorem find_related_pages_spec_witness :
    (find_related_pages relSoup [pageA, pageB] pageA.url).Nodup :=
  ((find_related_pages_spec relSoup [pageA, pageB] pageA.url).2 (by decide)).1
